import Mathlib

/-!
Verification development for the caching entity-extraction pipeline of
`src/spacytestwithcaching.py` (function `extract_all_entities_from_jsonl`
and its helpers).  The Python code is shallowly embedded: each loop of the
source becomes a Lean function on explicit state, the pickle cache file
becomes a map from digest keys to annotation results, and fallible steps
(missing JSON keys, a failing batch annotation call, an unreadable cache
file) become `Except` values.  The external spaCy annotator is an opaque
parameter, as is the fingerprint function `get_cache_key` (md5), which the
source treats as an injective digest.
-/

/-- An annotation result as built by `extract_entities_from_doc`
(lines 13-20): a dict mapping an entity label to the list of entity
strings, represented as an association list in insertion order. -/
abbrev EntityDict : Type := List (String × List String)

/-- The in-memory form of the pickled cache (lines 24-27): a mapping from
digest key to annotation result; `none` means the key is absent. -/
abbrev CacheMap : Type := String → Option EntityDict

/-- The empty cache, the value of `cache` when no cache file exists
(line 24). -/
def emptyCache : CacheMap := fun _ => none

/-- One text segment together with the document metadata stored for it
(lines 42-48): the segment text plus the `accession` and `path` fields of
the record it came from. -/
structure Segment where
  text : String
  accession : String
  path : String
deriving DecidableEq

/-- The texts of a segment list, in order (the `all_text` list of
line 31/43). -/
def segTexts (segs : List Segment) : List String := segs.map (·.text)

/-- The metadata of a segment list, in order (the `text_metadata` list of
line 32/45, holding the `(accession, path)` pair per segment). -/
def segMetas (segs : List Segment) : List (String × String) :=
  segs.map (fun s => (s.accession, s.path))

/-- The mutable state of the cache-testing loop of lines 56-74:
`texts_to_process`, `text_indices`, `cached_entities` and the
`cache_hits` counter, with the same meaning as the Python variables. -/
structure PlanState where
  texts_to_process : List String
  text_indices : List Nat
  cached_entities : List (Option EntityDict)
  cache_hits : Nat
deriving DecidableEq

/-- One iteration of the loop of lines 63-74: compute the cache key of the
text, on a hit append the cached result and bump the hit counter, on a
miss append the text and its index and a `None` placeholder. -/
def planStep (fp : String → String) (cache : CacheMap) (st : PlanState)
    (it : Nat × String) : PlanState :=
  match cache (fp it.2) with
  | some v =>
      { st with cached_entities := st.cached_entities ++ [some v],
                cache_hits := st.cache_hits + 1 }
  | none =>
      { st with texts_to_process := st.texts_to_process ++ [it.2],
                text_indices := st.text_indices ++ [it.1],
                cached_entities := st.cached_entities ++ [none] }

/-- The loop of lines 63-74 over the remaining texts, carrying the running
index of `enumerate`. -/
def planGo (fp : String → String) (cache : CacheMap) :
    Nat → List String → PlanState → PlanState
  | _, [], st => st
  | i, t :: ts, st => planGo fp cache (i + 1) ts (planStep fp cache st (i, t))

/-- The whole cache-testing pass of lines 56-74, started from the empty
state. -/
def plan (fp : String → String) (cache : CacheMap) (texts : List String) :
    PlanState :=
  planGo fp cache 0 texts ⟨[], [], [], 0⟩

/-- The scatter-back of lines 96-99: for each processed document, place its
entities at the original index recorded in `text_indices`. -/
def scatter (ce : List (Option EntityDict)) (idxs : List Nat)
    (rs : List EntityDict) : List (Option EntityDict) :=
  (idxs.zip rs).foldl (fun ce p => ce.set p.1 (some p.2)) ce

/-- The `new_cache_entries` dict built at lines 101-103: for each processed
text, the entry keyed by its digest, later occurrences overwriting earlier
ones as in a Python dict. -/
def newEntriesOf (fp : String → String) (ts : List String)
    (rs : List EntityDict) : CacheMap :=
  (ts.zip rs).foldl (fun m p => fun k => if k = fp p.1 then some p.2 else m k)
    emptyCache

/-- The `cache.update(new_cache_entries)` of line 116: keywise union in
which the new entries win on collision. -/
def dictUpdate (base upd : CacheMap) : CacheMap :=
  fun k => match upd k with
  | some v => some v
  | none => base k

/-- A per-document aggregate: the `doc_entities` dict of line 130, mapping
a document key `(accession, path)` to a dict from entity type to the set of
entity strings; `none` means the key is absent from the dict. -/
abbrev Agg : Type := (String × String) → Option (String → Option (Set String))

/-- The inner loop of lines 141-142: add every entity of one entity list to
the set held for its entity type. -/
def addEntities (s : Set String) (l : List String) : Set String :=
  l.foldl (fun s e => insert e s) s

/-- The loop of lines 137-142 over one annotation result: for each entity
type of the result, create its set if absent and add the entities. -/
def addResult (m : String → Option (Set String)) (res : EntityDict) :
    String → Option (Set String) :=
  res.foldl
    (fun m p => fun ty =>
      if ty = p.1 then some (addEntities ((m p.1).getD ∅) p.2) else m ty)
    m

/-- One iteration of the grouping loop of lines 131-142: create the
document entry if absent, then merge this segment's annotation result into
it. -/
def addSegment (agg : Agg) (key : String × String) (res : EntityDict) : Agg :=
  let inner := (agg key).getD (fun _ => none)
  fun k => if k = key then some (addResult inner res) else agg k

/-- The grouping pass of lines 129-142 over the zipped
`(entities, metadata)` pairs. -/
def docEntities (pairs : List (EntityDict × (String × String))) : Agg :=
  pairs.foldl (fun agg p => addSegment agg p.2 p.1) (fun _ => none)

/-- Collect a list of optional values, failing on the first `None`; models
that line 137 crashes (`NoneType` has no `.items()`) if an unfilled
placeholder survives to the grouping loop. -/
def optionAll {α : Type} : List (Option α) → Option (List α)
  | [] => some []
  | none :: _ => none
  | some a :: l => (optionAll l).map (a :: ·)

/-- The observable outcome of one successful run of
`extract_all_entities_from_jsonl` on one input batch: the per-document
aggregates, the hit and miss tallies printed at line 164, and whether the
cache file was rewritten and the annotator invoked. -/
structure RunOut where
  agg : Agg
  cache_hits : Nat
  miss_count : Nat
  wrote : Bool
  annotator_called : Bool

/-- A batch annotator that cannot fail and annotates each text with the
pure function `f`, the deterministic-annotator instance of the
`nlp.pipe` call of line 91. -/
def pureBatch (f : String → EntityDict) :
    List String → Except String (List EntityDict) :=
  fun ts => Except.ok (ts.map f)

/-- The body of `extract_all_entities_from_jsonl` from the cache-testing
loop on, over an already-materialised segment list.  `diskLoad` is the
cache file content read at line 26 and `diskCommit` the content re-read at
lines 109-113 immediately before the commit (the in-memory snapshot is
deleted at line 79 and never reused).  Steps, in source order: plan the
misses (63-74); if there are none, skip annotation and the cache write
entirely (83, 126-127); otherwise run the batch annotator (91), scatter
results back and build `new_cache_entries` (96-103), merge into the
re-read cache and write it back (109-120), and group per document
(129-142).  The first component is the cache file content after the run;
the second is the run outcome, or the error if the annotator call raised
(before any write) or an unfilled placeholder crashed the grouping loop
(after the write). -/
def runPipeline (fp : String → String)
    (ab : List String → Except String (List EntityDict))
    (diskLoad diskCommit : CacheMap) (segs : List Segment) :
    CacheMap × Except String RunOut :=
  let all_text := segTexts segs
  let metas := segMetas segs
  let st := plan fp diskLoad all_text
  if st.texts_to_process.isEmpty then
    match optionAll st.cached_entities with
    | some vals =>
        (diskCommit,
         Except.ok ⟨docEntities (vals.zip metas), st.cache_hits, 0, false, false⟩)
    | none => (diskCommit, Except.error "unfilled placeholder")
  else
    match ab st.texts_to_process with
    | Except.error e => (diskCommit, Except.error e)
    | Except.ok results =>
        let filled := scatter st.cached_entities st.text_indices results
        let disk2 := dictUpdate diskCommit (newEntriesOf fp st.texts_to_process results)
        match optionAll filled with
        | some vals =>
            (disk2,
             Except.ok ⟨docEntities (vals.zip metas), st.cache_hits,
                        st.texts_to_process.length, true, true⟩)
        | none => (disk2, Except.error "unfilled placeholder")

/-- The possible states of the persisted cache file as seen by the load of
lines 23-28: absent, present but unreadable by `pickle.load`, or a
readable pickled mapping. -/
inductive CacheFileState where
  | absent
  | corrupt
  | pickled (c : CacheMap)

/-- The cache load of lines 23-28: an absent file yields the empty dict;
a readable file yields its content; an unreadable file makes
`pickle.load` raise, and since neither `extract_all_entities_from_jsonl`
nor `main` handles the exception, the run aborts. -/
def loadCache : CacheFileState → Except String CacheMap
  | CacheFileState.absent => Except.ok emptyCache
  | CacheFileState.corrupt => Except.error "UnpicklingError"
  | CacheFileState.pickled c => Except.ok c

/-- One parsed JSONL record as accessed by lines 37-48; a `none` field
models a record in which that key is missing, so that the subscript
access raises `KeyError`. -/
structure RawRecord where
  text : Option String
  accession : Option String
  path : Option String
deriving DecidableEq

/-- The segment split of line 39: split the text on blank lines, strip
each piece, and keep the nonempty ones. -/
def splitParagraphs (t : String) : List String :=
  ((t.splitOn "\n\n").map String.trim).filter (fun p => p ≠ "")

/-- The inner loop of lines 42-48 for one record: for each segment, read
the `accession` and `path` fields of the record; a missing field raises
`KeyError` at the first segment. -/
def readSegsOfRecord (a p : Option String) :
    List String → Except String (List Segment)
  | [] => Except.ok []
  | s :: ss =>
      match a, p with
      | some av, some pv =>
          (readSegsOfRecord a p ss).map (Segment.mk s av pv :: ·)
      | none, _ => Except.error "KeyError: accession"
      | some _, none => Except.error "KeyError: path"

/-- Lines 37-48 for one record: read the `text` field (a missing one
raises `KeyError`), split it into segments and attach the metadata. -/
def readRecord (r : RawRecord) : Except String (List Segment) :=
  match r.text with
  | none => Except.error "KeyError: text"
  | some t => readSegsOfRecord r.accession r.path (splitParagraphs t)

/-- The reading loop of lines 35-48 over all records of the input file:
segments accumulate in order, and an exception raised for one record
propagates out of the loop, abandoning the rest of the file. -/
def readRecords : List RawRecord → Except String (List Segment)
  | [] => Except.ok []
  | r :: rs =>
      match readRecord r with
      | Except.error e => Except.error e
      | Except.ok segs =>
          match readRecords rs with
          | Except.error e => Except.error e
          | Except.ok rest => Except.ok (segs ++ rest)

/-- The sequence of cache-file states observable at crash points during
the commit write of lines 119-120.  The code rewrites the file in place:
`open(cache_file, "wb")` first truncates the file to length zero, then
`pickle.dump` appends the serialised bytes.  A crash before the `open`
leaves the old bytes; a crash between truncation and the end of the dump
leaves some proper prefix of the new bytes (possibly the empty file); a
run to completion leaves the new bytes.  File contents are byte lists. -/
def inPlaceWriteStates (old new : List Nat) : List (List Nat) :=
  old :: (List.range (new.length + 1)).map (fun n => new.take n)

/-- Closed form of the `texts_to_process` list produced by `plan`: the
texts whose key is absent from the cache, in order. -/
def missTexts (fp : String → String) (cache : CacheMap)
    (texts : List String) : List String :=
  texts.filter (fun t => (cache (fp t)).isNone)

/-- Closed form of the `text_indices` list produced by `plan`: the
positions of the cache misses, counted from `n`. -/
def missIdxs (fp : String → String) (cache : CacheMap) :
    Nat → List String → List Nat
  | _, [] => []
  | n, t :: ts =>
      if (cache (fp t)).isNone then n :: missIdxs fp cache (n + 1) ts
      else missIdxs fp cache (n + 1) ts

/-- Closed form of the `cache_hits` counter produced by `plan`. -/
def hitCount (fp : String → String) (cache : CacheMap)
    (texts : List String) : Nat :=
  texts.countP (fun t => (cache (fp t)).isSome)

/-- The example scenario of the design document: two segments of document
A with identical text and one segment of document B. -/
def exampleSegs : List Segment :=
  [⟨"hello world", "A", "x"⟩, ⟨"hello world", "A", "y"⟩,
   ⟨"goodbye", "B", "z"⟩]

/-- The example annotator of the design document: "hello world" yields one
PERSON entity Bob, every other text yields no entities. -/
def exampleAnnotator : String → EntityDict :=
  fun t => if t = "hello world" then [("PERSON", ["Bob"])] else []

/-- A one-entry cache used to exercise the all-hit path. -/
def hitCache : CacheMap :=
  fun k => if k = "alpha" then some [] else none

/-- Running the cache-testing loop from any intermediate state appends the
closed-form miss texts, miss indices, per-text cache lookups and hit count
to that state. -/
theorem planGo_eq (fp : String → String) (cache : CacheMap) :
    ∀ (texts : List String) (n : Nat) (st : PlanState),
      planGo fp cache n texts st =
        ⟨st.texts_to_process ++ missTexts fp cache texts,
         st.text_indices ++ missIdxs fp cache n texts,
         st.cached_entities ++ texts.map (fun t => cache (fp t)),
         st.cache_hits + hitCount fp cache texts⟩
  | [], n, st => by simp [planGo, missTexts, missIdxs, hitCount]
  | t :: ts, n, st => by
    cases h : cache (fp t) with
    | some v =>
      have ih := planGo_eq fp cache ts (n + 1)
        { st with cached_entities := st.cached_entities ++ [some v],
                  cache_hits := st.cache_hits + 1 }
      simp only [planGo, planStep, h] at ih ⊢
      rw [ih]
      simp only [missTexts, missIdxs, hitCount, List.filter_cons,
        List.countP_cons, h, Option.isNone_some, Option.isSome_some]
      simp [List.append_assoc, h]
      omega
    | none =>
      have ih := planGo_eq fp cache ts (n + 1)
        { st with texts_to_process := st.texts_to_process ++ [t],
                  text_indices := st.text_indices ++ [n],
                  cached_entities := st.cached_entities ++ [none] }
      simp only [planGo, planStep, h] at ih ⊢
      rw [ih]
      simp only [missTexts, missIdxs, hitCount, List.filter_cons,
        List.countP_cons, h, Option.isNone_none, Option.isSome_none]
      simp [List.append_assoc, h]

/-- Closed form of the whole planning pass of lines 56-74. -/
theorem plan_eq (fp : String → String) (cache : CacheMap)
    (texts : List String) :
    plan fp cache texts =
      ⟨missTexts fp cache texts, missIdxs fp cache 0 texts,
       texts.map (fun t => cache (fp t)), hitCount fp cache texts⟩ := by
  simpa [plan] using planGo_eq fp cache texts 0 ⟨[], [], [], 0⟩

/-- Hits and misses partition the segment list. -/
theorem hitCount_add_missTexts_length (fp : String → String)
    (cache : CacheMap) :
    ∀ texts : List String,
      hitCount fp cache texts + (missTexts fp cache texts).length
        = texts.length
  | [] => rfl
  | t :: ts => by
    have ih := hitCount_add_missTexts_length fp cache ts
    simp only [hitCount, missTexts] at ih ⊢
    cases h : cache (fp t) <;>
      simp [List.countP_cons, List.filter_cons, h] <;> omega

/-- Shifting the starting index shifts every recorded miss index. -/
theorem missIdxs_shift (fp : String → String) (cache : CacheMap) :
    ∀ (ts : List String) (n : Nat),
      missIdxs fp cache (n + 1) ts = (missIdxs fp cache n ts).map (· + 1)
  | [], _ => by simp [missIdxs]
  | t :: ts, n => by
    by_cases h : (cache (fp t)).isNone <;>
      simp [missIdxs, h, missIdxs_shift fp cache ts (n + 1)]

/-- Scattering at shifted indices leaves the head untouched. -/
theorem scatter_shift (x : Option EntityDict) :
    ∀ (idxs : List Nat) (rs : List EntityDict) (ce : List (Option EntityDict)),
      scatter (x :: ce) (idxs.map (· + 1)) rs = x :: scatter ce idxs rs
  | [], rs, ce => by simp [scatter]
  | _ :: _, [], _ => by simp [scatter]
  | i :: idxs, r :: rs, ce => by
    simpa [scatter] using scatter_shift x idxs rs (ce.set i (some r))

/-- Scattering a first result at index zero fills the head placeholder. -/
theorem scatter_cons_zero (x : Option EntityDict)
    (ce : List (Option EntityDict)) (idxs : List Nat) (r : EntityDict)
    (rs : List EntityDict) :
    scatter (x :: ce) (0 :: idxs) (r :: rs) = scatter (some r :: ce) idxs rs :=
  rfl

/-- The scatter-back of lines 96-99 fills every placeholder: position `i`
of the result holds the cached value if segment `i` was a hit and the
annotator result for its text if it was a miss. -/
theorem scatter_plan (fp : String → String) (cache : CacheMap)
    (f : String → EntityDict) :
    ∀ texts : List String,
      scatter (texts.map (fun t => cache (fp t))) (missIdxs fp cache 0 texts)
          ((missTexts fp cache texts).map f)
        = texts.map (fun t => some ((cache (fp t)).getD (f t)))
  | [] => by simp [scatter, missIdxs, missTexts]
  | t :: ts => by
    cases h : cache (fp t) with
    | some v =>
      have hmT : missTexts fp cache (t :: ts) = missTexts fp cache ts := by
        simp [missTexts, List.filter_cons, h]
      have hmI : missIdxs fp cache 0 (t :: ts)
          = (missIdxs fp cache 0 ts).map (· + 1) := by
        rw [show missIdxs fp cache 0 (t :: ts)
            = if (cache (fp t)).isNone then 0 :: missIdxs fp cache 1 ts
              else missIdxs fp cache 1 ts from rfl]
        rw [show (1 : Nat) = 0 + 1 from rfl, missIdxs_shift fp cache ts 0]
        simp [h]
      simp only [List.map_cons, h, hmT, hmI, Option.getD_some]
      rw [scatter_shift, scatter_plan fp cache f ts]
    | none =>
      have hmT : missTexts fp cache (t :: ts) = t :: missTexts fp cache ts := by
        simp [missTexts, List.filter_cons, h]
      have hmI : missIdxs fp cache 0 (t :: ts)
          = 0 :: (missIdxs fp cache 0 ts).map (· + 1) := by
        rw [show missIdxs fp cache 0 (t :: ts)
            = if (cache (fp t)).isNone then 0 :: missIdxs fp cache 1 ts
              else missIdxs fp cache 1 ts from rfl]
        rw [show (1 : Nat) = 0 + 1 from rfl, missIdxs_shift fp cache ts 0]
        simp [h]
      simp only [List.map_cons, h, hmT, hmI, Option.getD_none]
      rw [scatter_cons_zero, scatter_shift, scatter_plan fp cache f ts]

/-- Folding new cache entries leaves a key untouched if no processed text
hashes to it. -/
theorem newEntriesFold_skip (fp : String → String) :
    ∀ (l : List (String × EntityDict)) (m : CacheMap) (k : String),
      (∀ p ∈ l, fp p.1 ≠ k) →
      l.foldl (fun m p => fun k => if k = fp p.1 then some p.2 else m k) m k
        = m k
  | [], _, _, _ => rfl
  | p :: l, m, k, h => by
    have hp : fp p.1 ≠ k := h p (List.mem_cons_self p l)
    have ih := newEntriesFold_skip fp l
      (fun k => if k = fp p.1 then some p.2 else m k) k
      (fun q hq => h q (List.mem_cons_of_mem p hq))
    simp only [List.foldl_cons]
    rw [ih]
    exact if_neg (fun hk => hp hk.symm)

/-- A key no processed text hashes to is absent from
`new_cache_entries`. -/
theorem newEntriesOf_skip (fp : String → String) (ts : List String)
    (rs : List EntityDict) (k : String) (h : ∀ t ∈ ts, fp t ≠ k) :
    newEntriesOf fp ts rs k = none := by
  unfold newEntriesOf
  rw [newEntriesFold_skip fp _ _ _
    (fun p hp => h p.1 (List.of_mem_zip hp).1)]
  rfl

/-- With an injective digest and results computed by a deterministic
annotator, the `new_cache_entries` dict holds the annotator result of
every processed text under its digest key. -/
theorem newEntriesOf_mem (fp : String → String)
    (hfp : Function.Injective fp) (f : String → EntityDict) :
    ∀ (ts : List String) (m : CacheMap) (t : String), t ∈ ts →
      (ts.zip (ts.map f)).foldl
          (fun m p => fun k => if k = fp p.1 then some p.2 else m k) m (fp t)
        = some (f t)
  | [], _, _, h => absurd h (List.not_mem_nil _)
  | t' :: ts, m, t, h => by
    simp only [List.map_cons, List.zip_cons_cons, List.foldl_cons]
    by_cases ht : t ∈ ts
    · exact newEntriesOf_mem fp hfp f ts _ t ht
    · have : t = t' := by
        rcases List.mem_cons.mp h with h1 | h1
        · exact h1
        · exact absurd h1 ht
      subst this
      rw [newEntriesFold_skip fp _ _ _ (fun p hp => by
        have hmem := (List.of_mem_zip hp).1
        intro hk
        exact ht (hfp hk ▸ hmem))]
      simp

/-- The digest key of a processed text is present in `new_cache_entries`
with its annotator result. -/
theorem newEntriesOf_lookup (fp : String → String)
    (hfp : Function.Injective fp) (f : String → EntityDict)
    (ts : List String) (t : String) (h : t ∈ ts) :
    newEntriesOf fp ts (ts.map f) (fp t) = some (f t) :=
  newEntriesOf_mem fp hfp f ts emptyCache t h

/-- Collecting a list of present values succeeds with those values. -/
theorem optionAll_map_some {α : Type} :
    ∀ l : List α, optionAll (l.map some) = some l
  | [] => rfl
  | a :: l => by simp [optionAll, optionAll_map_some l]

/-- Collecting the cache lookups succeeds when every lookup hits. -/
theorem optionAll_hits (fp : String → String) (cache : CacheMap) :
    ∀ texts : List String,
      (∀ t ∈ texts, (cache (fp t)).isSome) →
      optionAll (texts.map (fun t => cache (fp t)))
        = some (texts.map (fun t => (cache (fp t)).getD []))
  | [], _ => rfl
  | t :: ts, h => by
    have ht := h t (List.mem_cons_self t ts)
    obtain ⟨v, hv⟩ := Option.isSome_iff_exists.mp ht
    have ih := optionAll_hits fp cache ts
      (fun u hu => h u (List.mem_cons_of_mem t hu))
    simp [optionAll, hv, ih]

/-- When every segment text hits the cache, the run takes the
skip-everything branch of lines 126-127: the annotator is not invoked, the
cache file is not rewritten, and the aggregates are grouped from the
cached results. -/
theorem runPipeline_allhit (fp : String → String)
    (ab : List String → Except String (List EntityDict))
    (dL dC : CacheMap) (segs : List Segment)
    (h : ∀ t ∈ segTexts segs, (dL (fp t)).isSome) :
    runPipeline fp ab dL dC segs =
      (dC, Except.ok
        ⟨docEntities (((segTexts segs).map (fun t => (dL (fp t)).getD [])).zip
            (segMetas segs)),
         hitCount fp dL (segTexts segs), 0, false, false⟩) := by
  have hm : missTexts fp dL (segTexts segs) = [] :=
    List.filter_eq_nil_iff.mpr (fun t ht => by
      simp only [Option.isNone_iff_eq_none, decide_eq_true_eq]
      exact Option.isSome_iff_ne_none.mp (h t ht))
  simp only [runPipeline, plan_eq, hm, List.isEmpty_nil, if_true]
  rw [optionAll_hits fp dL _ h]

/-- When some segment misses and the batch annotator call raises, the run
aborts with that error before touching the cache file. -/
theorem runPipeline_abFail (fp : String → String)
    (ab : List String → Except String (List EntityDict))
    (dL dC : CacheMap) (segs : List Segment) (e : String)
    (hne : missTexts fp dL (segTexts segs) ≠ [])
    (hab : ab (missTexts fp dL (segTexts segs)) = Except.error e) :
    runPipeline fp ab dL dC segs = (dC, Except.error e) := by
  simp only [runPipeline, plan_eq, hab]
  rw [if_neg (by simp [hne])]

/-- When some segment misses and the batch annotator call returns, the
new entries derived from the whole batch are merged into the re-read
cache file content in one write, whatever happens afterwards. -/
theorem runPipeline_abOk_disk (fp : String → String)
    (ab : List String → Except String (List EntityDict))
    (dL dC : CacheMap) (segs : List Segment) (rs : List EntityDict)
    (hne : missTexts fp dL (segTexts segs) ≠ [])
    (hab : ab (missTexts fp dL (segTexts segs)) = Except.ok rs) :
    (runPipeline fp ab dL dC segs).1
      = dictUpdate dC (newEntriesOf fp (missTexts fp dL (segTexts segs)) rs) := by
  simp only [runPipeline, plan_eq, hab]
  rw [if_neg (by simp [hne])]
  cases optionAll (scatter ((segTexts segs).map (fun t => dL (fp t)))
      (missIdxs fp dL 0 (segTexts segs)) rs) <;> rfl

/-- When some segment misses and the annotator is the deterministic pure
one, the run commits the new entries and groups the scattered results:
hit segments contribute their cached result, missed segments the
annotator result for their text. -/
theorem runPipeline_miss_pure (fp : String → String)
    (f : String → EntityDict) (dL dC : CacheMap) (segs : List Segment)
    (hne : missTexts fp dL (segTexts segs) ≠ []) :
    runPipeline fp (pureBatch f) dL dC segs =
      (dictUpdate dC (newEntriesOf fp (missTexts fp dL (segTexts segs))
          ((missTexts fp dL (segTexts segs)).map f)),
       Except.ok
        ⟨docEntities (((segTexts segs).map
            (fun t => (dL (fp t)).getD (f t))).zip (segMetas segs)),
         hitCount fp dL (segTexts segs),
         (missTexts fp dL (segTexts segs)).length, true, true⟩) := by
  simp only [runPipeline, plan_eq, pureBatch]
  rw [if_neg (by simp [hne])]
  rw [scatter_plan fp dL f (segTexts segs)]
  rw [show (segTexts segs).map (fun t => some ((dL (fp t)).getD (f t)))
      = ((segTexts segs).map (fun t => (dL (fp t)).getD (f t))).map some by
    simp [List.map_map]]
  rw [optionAll_map_some]

/-- The entity-adding loop of lines 141-142 computes the union with the
set of entities of the list. -/
theorem addEntities_eq :
    ∀ (l : List String) (s : Set String),
      addEntities s l = s ∪ {e | e ∈ l}
  | [], s => by
    ext x; simp [addEntities]
  | e :: l, s => by
    have ih := addEntities_eq l (insert e s)
    simp only [addEntities, List.foldl_cons] at ih ⊢
    rw [ih]
    ext x
    simp only [Set.mem_union, Set.mem_insert_iff, Set.mem_setOf_eq,
      List.mem_cons]
    tauto

/-- The entities recorded for the head entity type split off the head
entry. -/
theorem entsOf_cons_self (p : String × List String) (res : EntityDict) :
    {e | ∃ q ∈ p :: res, q.1 = p.1 ∧ e ∈ q.2}
      = {e | e ∈ p.2} ∪ {e | ∃ q ∈ res, q.1 = p.1 ∧ e ∈ q.2} := by
  ext x
  simp only [Set.mem_union, Set.mem_setOf_eq, List.mem_cons]
  constructor
  · rintro ⟨q, (rfl | hq), h1, h2⟩
    · exact Or.inl h2
    · exact Or.inr ⟨q, hq, h1, h2⟩
  · rintro (h | ⟨q, hq, h1, h2⟩)
    · exact ⟨p, Or.inl rfl, rfl, h⟩
    · exact ⟨q, Or.inr hq, h1, h2⟩

/-- A head entry for a different entity type contributes nothing. -/
theorem entsOf_cons_ne (p : String × List String) (res : EntityDict)
    (ty : String) (hty : p.1 ≠ ty) :
    {e | ∃ q ∈ p :: res, q.1 = ty ∧ e ∈ q.2}
      = {e | ∃ q ∈ res, q.1 = ty ∧ e ∈ q.2} := by
  ext x
  simp only [Set.mem_setOf_eq, List.mem_cons]
  constructor
  · rintro ⟨q, (rfl | hq), h1, h2⟩
    · exact absurd h1 hty
    · exact ⟨q, hq, h1, h2⟩
  · rintro ⟨q, hq, h1, h2⟩
    exact ⟨q, Or.inr hq, h1, h2⟩

/-- A result that never names an entity type records no entities for
it. -/
theorem entsOf_empty_of_not_any (res : EntityDict) (ty : String)
    (hres : res.any (fun q => q.1 == ty) = false) :
    {e | ∃ q ∈ res, q.1 = ty ∧ e ∈ q.2} = (∅ : Set String) := by
  ext x
  simp only [Set.mem_setOf_eq, Set.mem_empty_iff_false, iff_false,
    not_exists]
  rintro q ⟨hq, h1, _⟩
  have := List.any_eq_false.mp hres q hq
  simp [h1] at this

/-- Closed form of the per-result merging loop of lines 137-142: an entity
type named by the result maps to the previous set (empty if absent)
unioned with all entities listed for that type; other entity types are
untouched. -/
theorem addResult_eq :
    ∀ (res : EntityDict) (m : String → Option (Set String)) (ty : String),
      addResult m res ty =
        if res.any (fun p => p.1 == ty) then
          some ((m ty).getD ∅ ∪ {e | ∃ p ∈ res, p.1 = ty ∧ e ∈ p.2})
        else m ty
  | [], m, ty => by simp [addResult]
  | p :: res, m, ty => by
    have ih := addResult_eq res
      (fun ty' =>
        if ty' = p.1 then some (addEntities ((m p.1).getD ∅) p.2) else m ty')
      ty
    simp only [addResult, List.foldl_cons] at ih ⊢
    rw [ih]
    by_cases hty : ty = p.1
    · subst hty
      rw [if_pos rfl]
      have hany : (p :: res).any (fun q => q.1 == p.1) = true := by
        simp [List.any_cons]
      rw [if_pos hany, entsOf_cons_self p res, addEntities_eq]
      cases hres : res.any (fun q => q.1 == p.1) with
      | true =>
        rw [if_pos rfl]
        simp only [Option.getD_some]
        rw [Set.union_assoc]
      | false =>
        rw [if_neg (by simp), entsOf_empty_of_not_any res p.1 hres,
          Set.union_empty]
    · rw [if_neg hty]
      have hbeq : (p.1 == ty) = false := by
        simp [Ne.symm hty]
      have hany : (p :: res).any (fun q => q.1 == ty)
          = res.any (fun q => q.1 == ty) := by
        simp [List.any_cons, hbeq]
      rw [hany, entsOf_cons_ne p res ty (Ne.symm hty)]

/-- Merging two annotation results into an entity-type map commutes. -/
theorem addResult_comm (m : String → Option (Set String))
    (r1 r2 : EntityDict) :
    addResult (addResult m r1) r2 = addResult (addResult m r2) r1 := by
  funext ty
  by_cases h1 : r1.any (fun p => p.1 == ty) <;>
    by_cases h2 : r2.any (fun p => p.1 == ty) <;>
      simp only [addResult_eq, h1, h2, if_true, if_false, Bool.false_eq_true,
        Option.getD_some] <;>
      first
        | rfl
        | rw [Set.union_right_comm]

/-- Folding two segments into the document aggregate commutes, whether or
not they belong to the same document. -/
theorem addSegment_comm (agg : Agg) (k1 k2 : String × String)
    (r1 r2 : EntityDict) :
    addSegment (addSegment agg k1 r1) k2 r2
      = addSegment (addSegment agg k2 r2) k1 r1 := by
  funext k
  simp only [addSegment]
  by_cases h12 : k2 = k1
  · subst h12
    by_cases hk : k = k2 <;> simp [hk, addResult_comm]
  · by_cases hk1 : k = k1 <;> by_cases hk2 : k = k2 <;>
      simp_all [addSegment]

/-- The per-document grouping of lines 129-142 is independent of the
order of the `(entities, metadata)` pairs. -/
theorem docEntities_perm (l1 l2 : List (EntityDict × (String × String)))
    (h : l1.Perm l2) : docEntities l1 = docEntities l2 :=
  h.foldl_eq'
    (fun p _ q _ agg => addSegment_comm agg p.2 q.2 p.1 q.1) _

/-- After the commit of a run with a deterministic annotator, the key of
every segment text is present: hits keep their previous value and misses
gain the annotator result (the digest is injective, as the source assumes
of md5). -/
theorem commit_lookup (fp : String → String)
    (hfp : Function.Injective fp) (f : String → EntityDict) (d : CacheMap)
    (texts : List String) (t : String) (ht : t ∈ texts) :
    dictUpdate d (newEntriesOf fp (missTexts fp d texts)
        ((missTexts fp d texts).map f)) (fp t)
      = some ((d (fp t)).getD (f t)) := by
  cases h : d (fp t) with
  | none =>
    have htm : t ∈ missTexts fp d texts :=
      List.mem_filter.mpr ⟨ht, by simp [h]⟩
    simp [dictUpdate, newEntriesOf_lookup fp hfp f _ t htm, h]
  | some v =>
    have hnone : newEntriesOf fp (missTexts fp d texts)
        ((missTexts fp d texts).map f) (fp t) = none := by
      apply newEntriesOf_skip
      intro u hu hk
      have hmiss : (d (fp u)).isNone := by
        simpa using (List.mem_filter.mp hu).2
      rw [hk, h] at hmiss
      simp at hmiss
    simp [dictUpdate, hnone, h]

/-- C3 counterexample: the claim says an unparsable cache file is treated
as an absent store (cold start with an empty cache) and the run continues;
in the code the `pickle.load` of line 27 raises with no handler anywhere
on the call path, so the load yields an error, not the empty store. -/
theorem c3_counterexample :
    loadCache CacheFileState.corrupt = Except.error "UnpicklingError" := rfl

/-- C3 amended: absence of the cache file is not an error and yields the
empty store, and a readable file yields its content; but an unreadable
(corrupt) file makes the load raise, aborting the run instead of degrading
to a cold start. -/
theorem c3_amended :
    loadCache CacheFileState.absent = Except.ok emptyCache
      ∧ (∀ c, loadCache (CacheFileState.pickled c) = Except.ok c)
      ∧ ∃ e, loadCache CacheFileState.corrupt = Except.error e :=
  ⟨rfl, fun _ => rfl, ⟨"UnpicklingError", rfl⟩⟩

/-- C4 counterexample: the claim says a record missing a required key is
skipped, counted, and the remaining records are still processed; in the
code the subscript of line 39 raises `KeyError` with no handler, so the
whole shard read aborts at the bad record and the well-formed record after
it is never reached. -/
theorem c4_counterexample :
    readRecords [⟨none, some "A", some "p"⟩, ⟨some "hello", some "A", some "p"⟩]
      = Except.error "KeyError: text" := rfl

/-- A record whose keys the loop of lines 35-48 actually subscripts and
finds missing makes `readRecord` raise: a missing text field fails at
line 39, and a missing accession or path field fails at lines 46-47 for
the first parsed segment, provided the text yields at least one
segment. -/
theorem readRecord_malformed (r : RawRecord)
    (h : r.text = none
      ∨ ∃ t, r.text = some t ∧ splitParagraphs t ≠ []
          ∧ (r.accession = none ∨ r.path = none)) :
    ∃ e, readRecord r = Except.error e := by
  rcases h with htext | ⟨t, ht, hsegs, hap⟩
  · exact ⟨"KeyError: text", by simp [readRecord, htext]⟩
  · cases hs : splitParagraphs t with
    | nil => exact absurd hs hsegs
    | cons seg segs =>
      cases hacc : r.accession with
      | none =>
        exact ⟨"KeyError: accession",
          by simp [readRecord, ht, hs, readSegsOfRecord, hacc]⟩
      | some av =>
        have hpath : r.path = none := by
          rcases hap with h | h
          · rw [hacc] at h
            exact absurd h (by simp)
          · exact h
        exact ⟨"KeyError: path",
          by simp [readRecord, ht, hs, readSegsOfRecord, hacc, hpath]⟩

/-- A shard containing a record that raises during reading never yields a
segment list: the exception propagates out of the loop of lines 35-48 at
that record. -/
theorem readRecords_malformed_aborts :
    ∀ (recs : List RawRecord) (r : RawRecord), r ∈ recs →
      (r.text = none
        ∨ ∃ t, r.text = some t ∧ splitParagraphs t ≠ []
            ∧ (r.accession = none ∨ r.path = none)) →
      ∀ out, readRecords recs ≠ Except.ok out
  | [], r, hmem, _, _ => absurd hmem (List.not_mem_nil r)
  | a :: l, r, hmem, hmal, out => by
    rcases List.mem_cons.mp hmem with rfl | hmem
    · obtain ⟨e, he⟩ := readRecord_malformed r hmal
      simp [readRecords, he]
    · cases ha : readRecord a with
      | error e => simp [readRecords, ha]
      | ok segs =>
        simp only [readRecords, ha]
        cases hl : readRecords l with
        | error e => simp
        | ok rest =>
          exact absurd hl (readRecords_malformed_aborts l r hmem hmal rest)

/-- C4 amended: a record with no text field, or with at least one parsed
segment but no accession or no path field, raises `KeyError`, and the
exception aborts the whole shard at that record: the remaining records
are never processed, and nothing is skipped or counted.  A record missing
accession or path whose text yields zero segments raises nothing at all,
because those keys are only subscripted inside the per-segment loop, and
processing simply continues past it. -/
theorem c4_amended :
    (∀ (recs : List RawRecord) (r : RawRecord), r ∈ recs →
        (r.text = none
          ∨ ∃ t, r.text = some t ∧ splitParagraphs t ≠ []
              ∧ (r.accession = none ∨ r.path = none)) →
        ∀ out, readRecords recs ≠ Except.ok out)
      ∧ ∀ (r : RawRecord) (t : String), r.text = some t →
          splitParagraphs t = [] → readRecord r = Except.ok [] :=
  ⟨readRecords_malformed_aborts,
   fun r t ht hs => by simp [readRecord, ht, hs, readSegsOfRecord]⟩

/-- C4 witness: the amended claim at a concrete record with no text
field — the shard read never yields a segment list. -/
theorem c4_witness :
    readRecords [⟨none, some "A", some "p"⟩] ≠ Except.ok [] :=
  c4_amended.1 [⟨none, some "A", some "p"⟩] ⟨none, some "A", some "p"⟩
    (List.mem_singleton.mpr rfl) (Or.inl rfl) []

/-- C6: the planner of lines 56-74 puts every segment in exactly one of
hit or miss, so hits plus misses equal the number of segments, and the
scatter-back of lines 96-99 produces a full-length array in original
order whose position i holds the cached result when segment i hit and the
annotator result for the text of segment i when it missed. -/
theorem c6_partition_scatter (fp : String → String) (cache : CacheMap)
    (texts : List String) (f : String → EntityDict) :
    (plan fp cache texts).cache_hits
        + (plan fp cache texts).texts_to_process.length = texts.length
      ∧ scatter (plan fp cache texts).cached_entities
          (plan fp cache texts).text_indices
          ((plan fp cache texts).texts_to_process.map f)
        = texts.map (fun t => some ((cache (fp t)).getD (f t))) := by
  rw [plan_eq]
  exact ⟨hitCount_add_missTexts_length fp cache texts,
    scatter_plan fp cache f texts⟩

/-- C7: the grouping loop of lines 129-142 folds every pair exactly once
and its result does not depend on the order of the pairs: aggregating any
permutation of the (entities, document-key) pairs yields the same
per-document mapping, because set insertion is commutative, associative
and idempotent. -/
theorem c7_aggregate_perm (l1 l2 : List (EntityDict × (String × String)))
    (h : l1.Perm l2) :
    docEntities l1 = docEntities l2 :=
  docEntities_perm l1 l2 h

/-- C7 witness: the permutation invariance at a concrete pair of lists. -/
theorem c7_witness :
    docEntities [([("PERSON", ["Bob"])], ("A", "x")), ([], ("B", "z"))]
      = docEntities [([], ("B", "z")), ([("PERSON", ["Bob"])], ("A", "x"))] :=
  c7_aggregate_perm _ _ (List.Perm.swap _ _ _)

/-- C5: when some segment misses, a batch annotation call that raises
aborts the run with that error and the cache file content is exactly what
it was at commit-read time (nothing new is written); when the call
returns, every entry derived from the batch is merged and written
together in the single commit of lines 107-120. -/
theorem c5_batch_failure (fp : String → String)
    (ab : List String → Except String (List EntityDict))
    (dL dC : CacheMap) (segs : List Segment)
    (hne : missTexts fp dL (segTexts segs) ≠ []) :
    (∀ e, ab (missTexts fp dL (segTexts segs)) = Except.error e →
        runPipeline fp ab dL dC segs = (dC, Except.error e))
      ∧ (∀ rs, ab (missTexts fp dL (segTexts segs)) = Except.ok rs →
          (runPipeline fp ab dL dC segs).1
            = dictUpdate dC
                (newEntriesOf fp (missTexts fp dL (segTexts segs)) rs)) :=
  ⟨fun e he => runPipeline_abFail fp ab dL dC segs e hne he,
   fun rs hrs => runPipeline_abOk_disk fp ab dL dC segs rs hne hrs⟩

/-- C5 witness: a failing annotator aborts a concrete one-segment run
leaving the cache file untouched. -/
theorem c5_witness :
    runPipeline id (fun _ => Except.error "AnnotationBatchFailure")
        emptyCache emptyCache [⟨"alpha", "A", "p"⟩]
      = (emptyCache, Except.error "AnnotationBatchFailure") :=
  (c5_batch_failure id (fun _ => Except.error "AnnotationBatchFailure")
      emptyCache emptyCache [⟨"alpha", "A", "p"⟩] (by decide)).1
    "AnnotationBatchFailure" rfl

/-- C2 counterexample: the claim says a crash at any point during the
commit write leaves either the complete old or the complete new file; the
code of lines 119-120 rewrites the cache file in place, so the truncated
state after `open(cache_file, "wb")` — the empty file — is observable at
a crash and is neither the old nor the new content. -/
theorem c2_counterexample :
    ¬ ∀ s ∈ inPlaceWriteStates [0] [1], s = [0] ∨ s = [1] := by decide

/-- C2 amended: the commit rewrites the cache file in place, not via a
temporary file: a crash before the write leaves the old bytes and a
completed write leaves the new bytes, but every intermediate crash point
shows a (possibly empty) prefix of the new bytes, and some observable
state differs from both old and new, so the write is not atomic.  What
does hold of a crash that happens before the write starts is that the old
file stays intact, and any text whose key the surviving cache lacks is
planned as a miss again on the next run. -/
theorem c2_amended (old new : List Nat) (hold : old ≠ []) (hnew : new ≠ []) :
    (inPlaceWriteStates old new).head? = some old
      ∧ new ∈ inPlaceWriteStates old new
      ∧ (∀ s ∈ inPlaceWriteStates old new, s = old ∨ ∃ n, s = new.take n)
      ∧ (∃ s ∈ inPlaceWriteStates old new, s ≠ old ∧ s ≠ new)
      ∧ ∀ (fp : String → String) (c : CacheMap) (texts : List String)
          (t : String), t ∈ texts → c (fp t) = none →
            t ∈ (plan fp c texts).texts_to_process := by
  refine ⟨rfl, ?_, ?_, ?_, ?_⟩
  · refine List.mem_cons_of_mem old (List.mem_map.mpr ⟨new.length, ?_, ?_⟩)
    · exact List.mem_range.mpr (Nat.lt_succ_self _)
    · exact List.take_length new
  · intro s hs
    rcases List.mem_cons.mp hs with rfl | hs
    · exact Or.inl rfl
    · obtain ⟨n, _, rfl⟩ := List.mem_map.mp hs
      exact Or.inr ⟨n, rfl⟩
  · refine ⟨[], List.mem_cons_of_mem old (List.mem_map.mpr
      ⟨0, List.mem_range.mpr (Nat.succ_pos _), rfl⟩), ?_, ?_⟩
    · exact fun h => hold h.symm
    · exact fun h => hnew h.symm
  · intro fp c texts t ht hc
    rw [plan_eq]
    exact List.mem_filter.mpr ⟨ht, by simp [hc]⟩

/-- C2 witness: the amended claim at one-byte old and new contents. -/
theorem c2_witness :
    ∃ s ∈ inPlaceWriteStates [0] [1], s ≠ [0] ∧ s ≠ [1] :=
  (c2_amended [0] [1] (by decide) (by decide)).2.2.2.1

/-- C10: if every segment of the batch hits the cache, the run takes the
skip branch of lines 126-127: the annotator is never invoked (the result
does not depend on the annotator argument at all), the cache file is not
opened for writing and its content is returned unchanged, and the
per-document output is still grouped from the cached results. -/
theorem c10_allhit_frame (fp : String → String)
    (ab : List String → Except String (List EntityDict))
    (dL dC : CacheMap) (segs : List Segment)
    (h : ∀ t ∈ segTexts segs, (dL (fp t)).isSome) :
    runPipeline fp ab dL dC segs
      = (dC, Except.ok
          ⟨docEntities (((segTexts segs).map
              (fun t => (dL (fp t)).getD [])).zip (segMetas segs)),
           segs.length, 0, false, false⟩) := by
  rw [runPipeline_allhit fp ab dL dC segs h]
  have hc : hitCount fp dL (segTexts segs) = segs.length := by
    have := List.countP_eq_length.mpr h
    simpa [hitCount, segTexts] using this
  rw [hc]

/-- C10 witness: the all-hit frame property at a concrete one-segment
batch whose text is already cached, with an annotator that would fail if
it were ever invoked. -/
theorem c10_witness :
    runPipeline id (fun _ => Except.error "annotator invoked") hitCache
        emptyCache [⟨"alpha", "A", "p"⟩]
      = (emptyCache, Except.ok
          ⟨docEntities (((segTexts [⟨"alpha", "A", "p"⟩]).map
              (fun t => (hitCache (id t)).getD [])).zip
            (segMetas [⟨"alpha", "A", "p"⟩])),
           1, 0, false, false⟩) :=
  c10_allhit_frame id (fun _ => Except.error "annotator invoked") hitCache
    emptyCache [⟨"alpha", "A", "p"⟩] (by decide)

/-- C8: with a deterministic annotator and an injective digest, the commit
of lines 107-120 merges the new entries into the cache file content as
re-read at commit time (`diskCommit`), not into the snapshot loaded at
plan time: a key carrying no new entry keeps its commit-time value, a key
carrying a new entry gets that value, every key present at commit time is
still present afterwards, and the key of every planned miss is present
with its freshly computed result, so the persisted cache grows
monotonically. -/
theorem c8_commit_monotone (fp : String → String)
    (hfp : Function.Injective fp) (f : String → EntityDict)
    (dL dC : CacheMap) (segs : List Segment) :
    (∀ k, newEntriesOf fp (missTexts fp dL (segTexts segs))
          ((missTexts fp dL (segTexts segs)).map f) k = none →
        (runPipeline fp (pureBatch f) dL dC segs).1 k = dC k)
      ∧ (∀ k v, newEntriesOf fp (missTexts fp dL (segTexts segs))
            ((missTexts fp dL (segTexts segs)).map f) k = some v →
          (runPipeline fp (pureBatch f) dL dC segs).1 k = some v)
      ∧ (∀ k, dC k ≠ none →
          (runPipeline fp (pureBatch f) dL dC segs).1 k ≠ none)
      ∧ (∀ t ∈ segTexts segs, dL (fp t) = none →
          (runPipeline fp (pureBatch f) dL dC segs).1 (fp t) = some (f t)) := by
  by_cases hm : missTexts fp dL (segTexts segs) = []
  · have hall : ∀ t ∈ segTexts segs, (dL (fp t)).isSome := by
      intro t ht
      by_contra hns
      have : t ∈ missTexts fp dL (segTexts segs) :=
        List.mem_filter.mpr ⟨ht, by
          cases hdl : dL (fp t) <;> simp_all⟩
      simp [hm] at this
    have hrun := runPipeline_allhit fp (pureBatch f) dL dC segs hall
    refine ⟨fun k _ => by rw [hrun], fun k v hv => ?_, fun k hk => by
      rw [hrun]; exact hk, fun t ht hmiss => ?_⟩
    · rw [hm] at hv
      simp [newEntriesOf, emptyCache] at hv
    · have := Option.isSome_iff_ne_none.mp (hall t ht)
      exact absurd hmiss this
  · have hrun := runPipeline_miss_pure fp f dL dC segs hm
    have hdisk : (runPipeline fp (pureBatch f) dL dC segs).1
        = dictUpdate dC (newEntriesOf fp (missTexts fp dL (segTexts segs))
            ((missTexts fp dL (segTexts segs)).map f)) := by
      rw [hrun]
    refine ⟨fun k hk => ?_, fun k v hv => ?_, fun k hk => ?_, fun t ht hmiss => ?_⟩
    · rw [hdisk]; simp [dictUpdate, hk]
    · rw [hdisk]; simp [dictUpdate, hv]
    · rw [hdisk]
      cases hne : newEntriesOf fp (missTexts fp dL (segTexts segs))
          ((missTexts fp dL (segTexts segs)).map f) k <;>
        simp [dictUpdate, hne, hk]
    · have htm : t ∈ missTexts fp dL (segTexts segs) :=
        List.mem_filter.mpr ⟨ht, by simp [hmiss]⟩
      rw [hdisk]
      simp [dictUpdate, newEntriesOf_lookup fp hfp f _ t htm]

/-- C8 witness: a one-segment miss is committed under its digest key with
its annotator result. -/
theorem c8_witness :
    (runPipeline id (pureBatch (fun _ => [("PERSON", ["Ann"])]))
        emptyCache emptyCache [⟨"beta", "B", "q"⟩]).1 (id "beta")
      = some [("PERSON", ["Ann"])] :=
  (c8_commit_monotone id Function.injective_id
      (fun _ => [("PERSON", ["Ann"])]) emptyCache emptyCache
      [⟨"beta", "B", "q"⟩]).2.2.2 "beta" (by decide) rfl

/-- C9: with a deterministic annotator and an injective digest, running
the pipeline twice over the same segment list starting from any cache
file is idempotent: the first run commits a cache under which the second
run finds every fingerprint present, so the second run performs zero
annotator calls (all segments hit), leaves the cache file identical, and
groups identical per-document aggregates. -/
theorem c9_idempotent (fp : String → String)
    (hfp : Function.Injective fp) (f : String → EntityDict) (d : CacheMap)
    (segs : List Segment) :
    ∃ d1 out1 out2,
      runPipeline fp (pureBatch f) d d segs = (d1, Except.ok out1)
        ∧ runPipeline fp (pureBatch f) d1 d1 segs = (d1, Except.ok out2)
        ∧ out2.agg = out1.agg
        ∧ out2.annotator_called = false
        ∧ out2.wrote = false
        ∧ out2.miss_count = 0
        ∧ out2.cache_hits = (segTexts segs).length := by
  by_cases hm : missTexts fp d (segTexts segs) = []
  · have hall : ∀ t ∈ segTexts segs, (d (fp t)).isSome := by
      intro t ht
      by_contra hns
      have : t ∈ missTexts fp d (segTexts segs) :=
        List.mem_filter.mpr ⟨ht, by
          cases hdl : d (fp t) <;> simp_all⟩
      simp [hm] at this
    have h1 := runPipeline_allhit fp (pureBatch f) d d segs hall
    exact ⟨d, _, _, h1, h1, rfl, rfl, rfl, rfl,
      by
        have := List.countP_eq_length.mpr hall
        simpa [hitCount] using this⟩
  · have h1 := runPipeline_miss_pure fp f d d segs hm
    have hkey : ∀ t ∈ segTexts segs,
        dictUpdate d (newEntriesOf fp (missTexts fp d (segTexts segs))
            ((missTexts fp d (segTexts segs)).map f)) (fp t)
          = some ((d (fp t)).getD (f t)) :=
      fun t ht => commit_lookup fp hfp f d (segTexts segs) t ht
    have hall2 : ∀ t ∈ segTexts segs,
        ((dictUpdate d (newEntriesOf fp (missTexts fp d (segTexts segs))
            ((missTexts fp d (segTexts segs)).map f))) (fp t)).isSome := by
      intro t ht
      rw [hkey t ht]
      rfl
    have h2 := runPipeline_allhit fp (pureBatch f)
      (dictUpdate d (newEntriesOf fp (missTexts fp d (segTexts segs))
          ((missTexts fp d (segTexts segs)).map f)))
      (dictUpdate d (newEntriesOf fp (missTexts fp d (segTexts segs))
          ((missTexts fp d (segTexts segs)).map f)))
      segs hall2
    refine ⟨_, _, _, h1, h2, ?_, rfl, rfl, rfl, by
      have := List.countP_eq_length.mpr hall2
      simpa [hitCount] using this⟩
    have hmap : (segTexts segs).map (fun t =>
        (dictUpdate d (newEntriesOf fp (missTexts fp d (segTexts segs))
            ((missTexts fp d (segTexts segs)).map f)) (fp t)).getD [])
        = (segTexts segs).map (fun t => (d (fp t)).getD (f t)) :=
      List.map_congr_left (fun t ht => by rw [hkey t ht]; rfl)
    show docEntities _ = docEntities _
    rw [hmap]

/-- C9 witness: idempotence at a concrete one-segment batch starting from
the empty cache. -/
theorem c9_witness :
    ∃ d1 out1 out2,
      runPipeline id (pureBatch (fun _ => [])) emptyCache emptyCache
          [⟨"gamma", "C", "r"⟩] = (d1, Except.ok out1)
        ∧ runPipeline id (pureBatch (fun _ => [])) d1 d1
            [⟨"gamma", "C", "r"⟩] = (d1, Except.ok out2)
        ∧ out2.agg = out1.agg
        ∧ out2.annotator_called = false
        ∧ out2.wrote = false
        ∧ out2.miss_count = 0
        ∧ out2.cache_hits = (segTexts [⟨"gamma", "C", "r"⟩]).length :=
  c9_idempotent id Function.injective_id (fun _ => []) emptyCache
    [⟨"gamma", "C", "r"⟩]

/-- C1 counterexample: the claim says identical texts in one batch are
deduplicated so the annotator receives at most one occurrence of each
distinct missed text; on the example segments with an empty cache the
loop of lines 63-74 appends one entry per missed occurrence, so the
`texts_to_process` list handed to the annotator at line 91 contains
"hello world" twice, not once. -/
theorem c1_counterexample :
    (plan id emptyCache (segTexts exampleSegs)).texts_to_process
        = ["hello world", "hello world", "goodbye"]
      ∧ (plan id emptyCache (segTexts exampleSegs)).texts_to_process.count
          "hello world" ≠ 1 := by
  decide

/-- C1 amended: on the example scenario the pipeline submits one text per
missed segment occurrence — three texts, "hello world" twice — rather
than one per distinct text; dedup happens only through the digest keys,
so the committed cache still holds exactly the two entries for
"hello world" and "goodbye", and the per-document aggregates are
PERSON Bob for both segments of document A and the empty dict for
document B. -/
theorem c1_amended :
    ∃ out : RunOut,
      runPipeline id (pureBatch exampleAnnotator) emptyCache emptyCache
          exampleSegs
        = (fun k => if k = "goodbye" then some []
            else if k = "hello world" then some [("PERSON", ["Bob"])]
            else none,
           Except.ok out)
        ∧ out.miss_count = 3
        ∧ out.cache_hits = 0
        ∧ out.agg = (fun k =>
            if k = ("B", "z") then some (fun _ => none)
            else if k = ("A", "y") then
              some (fun ty => if ty = "PERSON" then some ({"Bob"} : Set String)
                else none)
            else if k = ("A", "x") then
              some (fun ty => if ty = "PERSON" then some ({"Bob"} : Set String)
                else none)
            else none) := by
  have hne : missTexts id emptyCache (segTexts exampleSegs) ≠ [] := by decide
  have hmt : missTexts id emptyCache (segTexts exampleSegs)
      = ["hello world", "hello world", "goodbye"] := by decide
  have h1 := runPipeline_miss_pure id exampleAnnotator emptyCache emptyCache
    exampleSegs hne
  have hupd : ∀ u : CacheMap, dictUpdate emptyCache u = u := by
    intro u
    funext k
    cases hu : u k <;> simp [dictUpdate, hu, emptyCache]
  have hne2 : newEntriesOf id ["hello world", "hello world", "goodbye"]
      (["hello world", "hello world", "goodbye"].map exampleAnnotator)
      = (fun k => if k = "goodbye" then some []
          else if k = "hello world" then some [("PERSON", ["Bob"])]
          else none) := by
    funext k
    simp only [newEntriesOf, List.map_cons, List.map_nil, List.zip_cons_cons,
      List.zip_nil_right, List.foldl_cons, List.foldl_nil]
    by_cases h1 : k = "goodbye"
    · subst h1; decide
    · by_cases h2 : k = "hello world"
      · subst h2; decide
      · simp [h1, h2, emptyCache]
  have hpairs : ((segTexts exampleSegs).map
        (fun t => (emptyCache (id t)).getD (exampleAnnotator t))).zip
        (segMetas exampleSegs)
      = [([("PERSON", ["Bob"])], ("A", "x")),
         ([("PERSON", ["Bob"])], ("A", "y")), ([], ("B", "z"))] := by decide
  have eyx : (("A", "y") : String × String) ≠ ("A", "x") := by decide
  have ebx : (("B", "z") : String × String) ≠ ("A", "x") := by decide
  have eby : (("B", "z") : String × String) ≠ ("A", "y") := by decide
  have hagg : docEntities
      [([("PERSON", ["Bob"])], ("A", "x")),
       ([("PERSON", ["Bob"])], ("A", "y")), ([], ("B", "z"))]
      = (fun k =>
          if k = ("B", "z") then some (fun _ => none)
          else if k = ("A", "y") then
            some (fun ty => if ty = "PERSON" then some ({"Bob"} : Set String)
              else none)
          else if k = ("A", "x") then
            some (fun ty => if ty = "PERSON" then some ({"Bob"} : Set String)
              else none)
          else none) := by
    funext k
    simp only [docEntities, List.foldl_cons, List.foldl_nil, addSegment]
    by_cases hb : k = ("B", "z")
    · subst hb
      simp [eby, ebx, addResult]
    · by_cases hy : k = ("A", "y")
      · subst hy
        simp [Ne.symm eby, eyx, addResult, addEntities,
          insert_emptyc_eq]
      · by_cases hx : k = ("A", "x")
        · subst hx
          simp [Ne.symm ebx, Ne.symm eyx, addResult, addEntities,
            insert_emptyc_eq]
        · simp [hb, hy, hx]
  refine ⟨⟨docEntities (((segTexts exampleSegs).map
        (fun t => (emptyCache (id t)).getD (exampleAnnotator t))).zip
        (segMetas exampleSegs)),
      hitCount id emptyCache (segTexts exampleSegs),
      (missTexts id emptyCache (segTexts exampleSegs)).length,
      true, true⟩, ?_, ?_, ?_, ?_⟩
  · rw [h1, hmt, hupd, hne2]
  · show (missTexts id emptyCache (segTexts exampleSegs)).length = 3
    rw [hmt]
    rfl
  · show hitCount id emptyCache (segTexts exampleSegs) = 0
    decide
  · show docEntities _ = _
    rw [hpairs, hagg]
